import Mathlib

/-!
Verification development for the vstshill offline audio-processing core.

Shallow embedding of the components under scrutiny:
* `src/util/string_utils.cpp` — trimming, strict numeric parsing, time conversion;
* `src/automation/automation.cpp` — keyframe-schedule parsing and per-sample
  interpolation (`Automation::parse_automation_definition`,
  `Automation::get_parameter_values`, `Automation::parse_keyframe_time`);
* `src/audio/audio_io.cpp` — `MultiAudioReader::add_file` and
  `MultiAudioReader::read_interleaved`;
* `src/commands/process_command.cpp` — `ProcessCommand::run_audio_processing_loop`.

Conventions: C++ `std::string` is `List Char`; `float`/`double` sample and
parameter values are modelled exactly as `ℚ` (the embedding tracks the real
numbers the decimal grammar denotes; IEEE rounding of individual operations is
outside the model); `size_t` is `ℕ`, with the LP64 width `2 ^ 64` made explicit
exactly where the source can overflow (`std::stoul`).  Fallible code returns
`Except`/`Option`.
-/

namespace Vstshill

/-- Width of C++ `unsigned long` (= `size_t`) on the LP64 targets the program
is built for. -/
def ulongWidth : ℕ := 2 ^ 64

/-- `std::isspace` in the default C locale: space, `\t`, `\n`, vertical tab
(11), form feed (12), `\r`. -/
def isSpaceChar (c : Char) : Bool :=
  c = ' ' || c = '\t' || c = '\n' || c = '\r' || c.toNat = 11 || c.toNat = 12

/-- `vstk::util::trim` (string_utils.cpp:29-41): drop whitespace from both
ends. -/
def trim (l : List Char) : List Char :=
  ((l.dropWhile isSpaceChar).reverse.dropWhile isSpaceChar).reverse

/-- `vstk::util::ends_with_char` (string_utils.cpp:43-45):
`!str.empty() && str.back() == ch`. -/
def ends_with_char (l : List Char) (c : Char) : Bool :=
  decide (l.getLast? = some c)

/-- Numeric value of a run of decimal digit characters. -/
def digitsToNat (ds : List Char) : ℕ :=
  ds.foldl (fun a c => a * 10 + (c.toNat - 48)) 0

/-- The two exception kinds thrown by the `std::sto*` conversions used in
string_utils.cpp: `std::invalid_argument` (no conversion) and
`std::out_of_range` (converted value outside the result type). -/
inductive ParseExc where
  | invalidArgument
  | outOfRange
deriving DecidableEq

/-- Behaviour of `std::stoul(str, &pos)` with the default base 10 (as called
by `parse_ulong_strict`): skip leading whitespace, an optional `+`/`-` sign,
then at least one decimal digit; returns the sign flag, the digit magnitude and
the number of characters consumed, or `none` for `std::invalid_argument`. -/
def stoul_sim (l : List Char) : Option (Bool × ℕ × ℕ) :=
  let body := l.dropWhile isSpaceChar
  let ws := l.length - body.length
  match body with
  | '-' :: r =>
    let ds := r.takeWhile Char.isDigit
    if ds.isEmpty then none else some (true, digitsToNat ds, ws + 1 + ds.length)
  | '+' :: r =>
    let ds := r.takeWhile Char.isDigit
    if ds.isEmpty then none else some (false, digitsToNat ds, ws + 1 + ds.length)
  | _ =>
    let ds := body.takeWhile Char.isDigit
    if ds.isEmpty then none else some (false, digitsToNat ds, ws + ds.length)

/-- `vstk::util::parse_ulong_strict` (string_utils.cpp:15-27): run
`std::stoul`, then require the whole string to have been consumed.  Faithful to
the C library semantics: a digit magnitude above `ULONG_MAX` raises
`std::out_of_range` (which `PARSE_STRICT` does not catch), and a leading minus
sign negates the value *in unsigned arithmetic* — `"-1"` converts to
`2 ^ 64 - 1` with no error. -/
def parse_ulong_strict (l : List Char) : Except ParseExc ℕ :=
  match stoul_sim l with
  | none => .error .invalidArgument
  | some (neg, m, consumed) =>
    if ulongWidth ≤ m then .error .outOfRange
    else if consumed ≠ l.length then .error .invalidArgument
    else .ok (if neg then (ulongWidth - m) % ulongWidth else m)

/-- Behaviour of `std::stof(str, &pos)` on the decimal grammar (as called by
`parse_float_strict`): skip leading whitespace, optional sign, decimal digits
with an optional fractional part (at least one digit overall), and an optional
`e`/`E` exponent (backed out when no exponent digit follows).  The value is the
exact rational the literal denotes; returns `none` for
`std::invalid_argument`.  Hex/infinity/NaN literals and float range overflow
are not exercised by the program's automation documents and are outside the
model. -/
def stof_sim (l : List Char) : Option (ℚ × ℕ) :=
  let body := l.dropWhile isSpaceChar
  let ws := l.length - body.length
  let (sgn, afterSign, signLen) :=
    match body with
    | '-' :: r => ((-1 : ℚ), r, 1)
    | '+' :: r => ((1 : ℚ), r, 1)
    | _ => ((1 : ℚ), body, 0)
  let ip := afterSign.takeWhile Char.isDigit
  let afterInt := afterSign.dropWhile Char.isDigit
  let (fp, afterFrac, dotLen) :=
    match afterInt with
    | '.' :: r => (r.takeWhile Char.isDigit, r.dropWhile Char.isDigit, 1)
    | _ => ([], afterInt, 0)
  if ip.isEmpty && fp.isEmpty then none
  else
    let mant : ℚ := sgn * (digitsToNat (ip ++ fp) : ℚ) / ((10 : ℚ) ^ fp.length)
    let consumed := ws + signLen + ip.length + dotLen + fp.length
    match afterFrac with
    | c :: r =>
      if c = 'e' || c = 'E' then
        let (esgn, afterESign, esLen) :=
          match r with
          | '-' :: r2 => ((-1 : ℤ), r2, 1)
          | '+' :: r2 => ((1 : ℤ), r2, 1)
          | _ => ((1 : ℤ), r, 0)
        let ed := afterESign.takeWhile Char.isDigit
        if ed.isEmpty then some (mant, consumed)
        else some (mant * (10 : ℚ) ^ (esgn * (digitsToNat ed : ℤ)),
                   consumed + 1 + esLen + ed.length)
      else some (mant, consumed)
    | [] => some (mant, consumed)

/-- `vstk::util::parse_float_strict` (string_utils.cpp:23): `std::stof` plus
the full-consumption check of `PARSE_STRICT`. -/
def parse_float_strict (l : List Char) : Except ParseExc ℚ :=
  match stof_sim l with
  | none => .error .invalidArgument
  | some (q, consumed) =>
    if consumed = l.length then .ok q else .error .invalidArgument

/-- `vstk::util::seconds_to_samples` (string_utils.cpp:11-13):
`static_cast<size_t>(sec * sample_rate)`.  The cast truncates toward zero,
which on the nonnegative domain is `⌊sec * sample_rate⌋`; a negative product is
undefined behaviour in the source (`Int.toNat` clamps it to 0 here). -/
def seconds_to_samples (sec rate : ℚ) : ℕ :=
  (⌊sec * rate⌋).toNat

/-- `static_cast<size_t>(std::round(q))` for the percentage branch of
`parse_keyframe_time`: `std::round` rounds half away from zero, which on the
nonnegative domain is `⌊q + 1/2⌋`. -/
def round_half_away (q : ℚ) : ℕ :=
  (⌊q + 1 / 2⌋).toNat

/-- Errors of `Automation::parse_keyframe_time` (automation.cpp:105-145): the
two `std::runtime_error`s thrown there (each carrying the offending substring),
plus an `std::out_of_range` escaping the `catch (std::invalid_argument)`
clauses. -/
inductive KTimeErr where
  | invalidFloat (numberStr : List Char)
  | invalidSample (timeStr : List Char)
  | uncaughtOutOfRange (e : ParseExc)
deriving DecidableEq

/-- `Automation::parse_keyframe_time` (automation.cpp:105-145): trim, detect a
`s`/`%` suffix; with a suffix, strictly parse the float and convert
(seconds → `seconds_to_samples`, percent → rounded fraction of the input
length); without one, strictly parse an unsigned sample index. -/
def parse_keyframe_time (timeStr : List Char) (rate : ℚ) (inputLen : ℕ) :
    Except KTimeErr ℕ :=
  let trimmed := trim timeStr
  let isSec := ends_with_char trimmed 's'
  let isPct := ends_with_char trimmed '%'
  if isSec || isPct then
    let numberStr := trim trimmed.dropLast
    match parse_float_strict numberStr with
    | .error .invalidArgument => .error (.invalidFloat numberStr)
    | .error .outOfRange => .error (.uncaughtOutOfRange .outOfRange)
    | .ok t =>
      if isSec then .ok (seconds_to_samples t rate)
      else .ok (round_half_away (t / 100 * (inputLen : ℚ)))
  else
    match parse_ulong_strict trimmed with
    | .error .invalidArgument => .error (.invalidSample trimmed)
    | .error .outOfRange => .error (.uncaughtOutOfRange .outOfRange)
    | .ok v => .ok v

/-- JSON primitives reaching `Automation::get_parameter_value_from_json_primitive`
(automation.cpp:147-172): numbers and strings (other primitive kinds raise
`std::invalid_argument` there and never occur in the automation documents this
development examines). -/
inductive JsonVal where
  | num (q : ℚ)
  | str (s : List Char)
deriving DecidableEq

/-- The `std::out_of_range` thrown by
`get_parameter_value_from_json_primitive` for a number outside `[0, 1]`. -/
inductive ValueErr where
  | outOfRangeValue (q : ℚ)
deriving DecidableEq

/-- `Automation::get_parameter_value_from_json_primitive`
(automation.cpp:147-172): numbers must lie in `[0, 1]`; strings resolve to the
placeholder `0.5` with the text flag set. -/
def get_parameter_value_from_json_primitive (v : JsonVal) :
    Except ValueErr (ℚ × Bool) :=
  match v with
  | .num q => if q < 0 || 1 < q then .error (.outOfRangeValue q) else .ok (q, false)
  | .str _ => .ok (1 / 2, true)

/-- `AutomationKeyframes` (automation.hpp:9): `std::map<size_t, float>`,
modelled as an association list kept sorted by ascending sample-time. -/
abbrev AutomationKeyframes := List (ℕ × ℚ)

/-- `keyframes.contains(t)` on the `std::map`. -/
def kf_contains (ks : AutomationKeyframes) (t : ℕ) : Bool :=
  ks.any (fun kv => decide (kv.1 = t))

/-- `keyframes[t] = v` on the `std::map`: ordered insertion (assignment when
the key is already present, which `parse_automation_definition` rules out
beforehand). -/
def kf_insert : AutomationKeyframes → ℕ → ℚ → AutomationKeyframes
  | [], t, v => [(t, v)]
  | (t0, v0) :: rest, t, v =>
    if t < t0 then (t, v) :: (t0, v0) :: rest
    else if t = t0 then (t, v) :: rest
    else (t0, v0) :: kf_insert rest t v

/-- The message of the `std::runtime_error` thrown for a duplicate keyframe
(automation.cpp:43-45): `"duplicate keyframe time: " + std::to_string(t) +
" (obtained from input string " + time_str + ")"`. -/
def dup_keyframe_msg (t : ℕ) (timeStr : List Char) : List Char :=
  "duplicate keyframe time: ".data ++ (Nat.repr t).data ++
    " (obtained from input string ".data ++ timeStr ++ [')']

/-- The exceptions escaping `Automation::parse_automation_definition`
(automation.cpp:9-59). -/
inductive AutoErr where
  | dupKeyframe (msg : List Char)
  | badTime (e : KTimeErr)
  | badValue (e : ValueErr)
deriving DecidableEq

/-- One entry of the parsed automation document: either a single primitive
(constant value for the whole render) or a nested time-string → value object.
The nested object is carried in `std::map<std::string, json>` iteration order
(ascending string order). -/
inductive AutoEntry where
  | prim (v : JsonVal)
  | obj (kvs : List (List Char × JsonVal))

/-- The inner loop of `parse_automation_definition` over one parameter's
time-string → value object (automation.cpp:37-52), threading the keyframe map
being built: resolve the time, reject duplicates, range-check the value,
insert. -/
def parse_entry_object (rate : ℚ) (inputLen : ℕ) :
    List (List Char × JsonVal) → AutomationKeyframes →
    Except AutoErr AutomationKeyframes
  | [], ks => .ok ks
  | (timeStr, val) :: rest, ks =>
    match parse_keyframe_time timeStr rate inputLen with
    | .error e => .error (.badTime e)
    | .ok t =>
      if kf_contains ks t then .error (.dupKeyframe (dup_keyframe_msg t timeStr))
      else
        match get_parameter_value_from_json_primitive val with
        | .error e => .error (.badValue e)
        | .ok qb => parse_entry_object rate inputLen rest (kf_insert ks t qb.1)

/-- `Automation::parse_automation_definition` (automation.cpp:9-59) after JSON
decoding, over the document entries in `std::map` iteration order: a primitive
entry becomes the single keyframe `(0, value)`; an object entry runs
`parse_entry_object` from an empty map; the first exception escapes. -/
def parse_automation_definition (rate : ℚ) (inputLen : ℕ) :
    List (List Char × AutoEntry) →
    Except AutoErr (List (List Char × AutomationKeyframes))
  | [] => .ok []
  | (name, entry) :: rest =>
    let ksRes : Except AutoErr AutomationKeyframes :=
      match entry with
      | .prim v =>
        match get_parameter_value_from_json_primitive v with
        | .error e => .error (.badValue e)
        | .ok qb => .ok [(0, qb.1)]
      | .obj kvs => parse_entry_object rate inputLen kvs []
    match ksRes with
    | .error e => .error e
    | .ok ks =>
      match parse_automation_definition rate inputLen rest with
      | .error e => .error e
      | .ok res => .ok ((name, ks) :: res)

/-- `std::lerp(a, b, t) = a + t * (b - a)` (the formula the C++ definition
computes for finite arguments). -/
def lerp (a b t : ℚ) : ℚ := a + t * (b - a)

/-- The `std::upper_bound` call of `Automation::get_parameter_values`
(automation.cpp:72-76) on the ascending-time keyframe map: index of the first
keyframe whose time is strictly greater than `t`. -/
def upperIdx : AutomationKeyframes → ℕ → ℕ
  | [], _ => 0
  | kv :: rest, t => if kv.1 ≤ t then upperIdx rest t + 1 else 0

/-- The per-parameter body of `Automation::get_parameter_values`
(automation.cpp:66-100).  The three branches of the source dereference
`next_keyframe` (first branch), `prev(next_keyframe)` (second and third); the
dereferences are modelled with `List.get?`, so the out-of-bounds dereference of
`begin() = end()` on an empty keyframe map surfaces as `none`. -/
def valueAt (ks : AutomationKeyframes) (t : ℕ) : Option ℚ :=
  let i := upperIdx ks t
  if i = 0 then (ks.get? 0).map Prod.snd
  else if i = ks.length then (ks.get? (i - 1)).map Prod.snd
  else
    match ks.get? (i - 1), ks.get? i with
    | some p, some n =>
      some (lerp p.2 n.2 (((t - p.1 : ℕ) : ℚ) / ((n.1 - p.1 : ℕ) : ℚ)))
    | _, _ => none

/-- `Automation::get_parameter_values` (automation.cpp:61-103): evaluate every
parameter's schedule at the sample index. -/
def get_parameter_values (automation : List (List Char × AutomationKeyframes))
    (t : ℕ) : List (List Char × Option ℚ) :=
  automation.map (fun pk => (pk.1, valueAt pk.2 t))

/-- One opened audio source as `MultiAudioReader` sees it (audio_io.hpp:10-38,
audio_io.cpp:12-47): the header fields reported by libsndfile plus the frames
available from the current read position, each frame being one sample per
channel. -/
structure AudioSource where
  rate : ℚ
  channels : ℕ
  data : List (List ℚ)
deriving DecidableEq

/-- `AudioFileReader::read` (audio_io.cpp:38-47) returns the number of frames
libsndfile delivered: `min frames available`. -/
def readCount (frames : ℕ) (s : AudioSource) : ℕ :=
  min frames s.data.length

/-- `MultiAudioReader::total_channels` (audio_io.cpp:187-193). -/
def totalChannels (readers : List AudioSource) : ℕ :=
  (readers.map AudioSource.channels).sum

/-- `MultiAudioReader::sample_rate` (audio_io.cpp:180-185). -/
def mr_sample_rate (readers : List AudioSource) : ℚ :=
  match readers with
  | [] => 0
  | r :: _ => r.rate

/-- `MultiAudioReader::max_frames` (audio_io.cpp:195-201). -/
def mr_max_frames (readers : List AudioSource) : ℕ :=
  readers.foldl (fun m r => max m r.data.length) 0

/-- `MultiAudioReader::add_file` (audio_io.cpp:116-131).  The argument is the
outcome of `AudioFileReader::open`: `none` when the file cannot be opened,
otherwise the opened source.  A second-or-later source whose rate differs from
the first source's by more than `1.0` is rejected before the push, leaving the
reader list untouched. -/
def add_file (readers : List AudioSource) (file : Option AudioSource) :
    Bool × List AudioSource :=
  match file with
  | none => (false, readers)
  | some s =>
    match readers with
    | [] => (true, readers ++ [s])
    | r0 :: _ =>
      if 1 < |s.rate - r0.rate| then (false, readers)
      else (true, readers ++ [s])

/-- `buffer.set`-style write of channel samples `0..chans-1` of one frame `fr`
at consecutive buffer positions `base..base+chans-1` — the inner `ch` loop of
`read_interleaved` (audio_io.cpp:159-163). -/
def writeChans (buf : List ℚ) (base : ℕ) (fr : List ℚ) : ℕ → List ℚ
  | 0 => buf
  | ch + 1 => (writeChans buf base fr ch).set (base + ch) (fr.getD ch 0)

/-- The `frame` loop of `read_interleaved` (audio_io.cpp:158-164): write the
frames actually read for one source, frame `f` landing at buffer base
`(f0 + f) * total + chOff`. -/
def writeFrames (total chOff chans : ℕ) :
    List (List ℚ) → ℕ → List ℚ → List ℚ
  | [], _, buf => buf
  | fr :: rest, f0, buf =>
    writeFrames total chOff chans rest (f0 + 1)
      (writeChans buf (f0 * total + chOff) fr chans)

/-- The reader loop of `read_interleaved` (audio_io.cpp:149-167): for each
source read up to `frames` frames, fold the minimum read count, and interleave
the read data at the running channel offset. -/
def mergeSources (total frames : ℕ) :
    List AudioSource → ℕ → ℕ → List ℚ → ℕ × List ℚ
  | [], _, minF, buf => (minF, buf)
  | s :: rest, chOff, minF, buf =>
    mergeSources total frames rest (chOff + s.channels)
      (min minF (readCount frames s))
      (writeFrames total chOff s.channels (s.data.take frames) 0 buf)

/-- The `std::fill(buffer, buffer + temp_size, 0.0f)` of
`read_interleaved` (audio_io.cpp:147): zero the first `n` positions. -/
def zeroFill (buf : List ℚ) (n : ℕ) : List ℚ :=
  List.replicate n 0 ++ buf.drop n

/-- `MultiAudioReader::read_interleaved` (audio_io.cpp:133-170): with no
sources return 0 and leave the caller's buffer alone; otherwise zero the
`frames * total_channels` output region, then merge all sources, returning the
minimum frame count read (the fold starts from the requested `frames`). -/
def read_interleaved (readers : List AudioSource) (frames : ℕ)
    (buffer : List ℚ) : ℕ × List ℚ :=
  match readers with
  | [] => (0, buffer)
  | _ =>
    mergeSources (totalChannels readers) frames readers 0 frames
      (zeroFill buffer (frames * totalChannels readers))

/-- Channel offset of source `k` in the interleaved frame: the sum of the
channel counts of the sources attached before it. -/
def chanOffset (readers : List AudioSource) (k : ℕ) : ℕ :=
  totalChannels (readers.take k)

/-- Observable per-block actions of `ProcessCommand::run_audio_processing_loop`
(process_command.cpp:525-614), each tagged with the block's starting frame
offset (`frames_processed` at the top of the iteration):
* `readEv` — the `audio_reader.read_interleaved` call and its result;
* `procWarnEv` — the `log.warn("vst3 processing failed", ..., field("frame",
  frames_processed))` emitted when `plugin.process` fails;
* `writeEv` — the `output_writer.write` call and its result;
* `shortWriteEv` — the `log.error("failed to write complete block")` emitted
  just before the `break` when the written count differs from the block size. -/
inductive RenderEv where
  | readEv (offset requested got : ℕ)
  | procWarnEv (offset : ℕ)
  | writeEv (offset requested written : ℕ)
  | shortWriteEv (offset expected written : ℕ)
deriving DecidableEq

/-- Starting frame offset of an event. -/
def RenderEv.offset : RenderEv → ℕ
  | .readEv o _ _ => o
  | .procWarnEv o => o
  | .writeEv o _ _ => o
  | .shortWriteEv o _ _ => o

/-- Outcome of the processing loop: the final `frames_processed`, the events in
program order, and whether the loop was aborted by the short-write `break`
(the loop's only failure exit). -/
structure RenderResult where
  framesProcessed : ℕ
  events : List RenderEv
  failed : Bool
deriving DecidableEq

/-- The `while (frames_processed < total_frames)` loop of
`ProcessCommand::run_audio_processing_loop` (process_command.cpp:525-614), for
a loaded plugin.  The collaborators are abstracted by their observable
behaviour: `readGot offset n` is the frame count `read_interleaved` returns,
`procOk offset` whether `plugin.process` succeeds, and `writeGot offset n` the
frame count `output_writer.write` commits for the block starting at `offset`.
Each block computes `frames_to_process = min block_size remaining`, reads input
when a reader is attached (non-fatal whatever the count), processes (a failure
only logs a warning), writes, and `break`s — abandoning the loop — exactly when
the written count differs from `frames_to_process`.  A `block_size` of zero
makes the C++ loop spin forever; the embedding exits on that unreachable branch
(every theorem below assumes `0 < block_size`). -/
def renderGo (blockSize totalFrames : ℕ) (hasInput : Bool)
    (readGot : ℕ → ℕ → ℕ) (procOk : ℕ → Bool) (writeGot : ℕ → ℕ → ℕ) :
    ℕ → ℕ → List RenderEv → RenderResult
  | fuel, fp, evs =>
    if fp < totalFrames then
      match fuel with
      | 0 => ⟨fp, evs, true⟩
      | fuel + 1 =>
        let n := min blockSize (totalFrames - fp)
        let evs1 := evs ++ (if hasInput then [.readEv fp n (readGot fp n)] else [])
        let evs2 := evs1 ++ (if procOk fp then [] else [.procWarnEv fp])
        let w := writeGot fp n
        let evs3 := evs2 ++ [.writeEv fp n w]
        if w = n then
          renderGo blockSize totalFrames hasInput readGot procOk writeGot
            fuel (fp + n) evs3
        else ⟨fp, evs3 ++ [.shortWriteEv fp n w], true⟩
    else ⟨fp, evs, false⟩

/-- The full processing loop, from `frames_processed = 0` with no events.
`frames_processed` strictly increases every iteration, so `totalFrames` units
of fuel always suffice; fuel runs out only on the diverging `block_size = 0`
configuration. -/
def renderLoop (blockSize totalFrames : ℕ) (hasInput : Bool)
    (readGot : ℕ → ℕ → ℕ) (procOk : ℕ → Bool) (writeGot : ℕ → ℕ → ℕ) :
    RenderResult :=
  renderGo blockSize totalFrames hasInput readGot procOk writeGot
    totalFrames 0 []

/-! ### Sortedness of keyframe schedules

`std::map<size_t, float>` iterates in strictly ascending key order; the
association lists standing in for keyframe maps carry that invariant as the
decidable predicate `kfSorted`. -/

/-- Strictly ascending sample-times, the `std::map` iteration-order
invariant. -/
def kfSorted : AutomationKeyframes → Bool
  | [] => true
  | [_] => true
  | a :: b :: rest => decide (a.1 < b.1) && kfSorted (b :: rest)

theorem kfSorted_tail {a : ℕ × ℚ} {rest : AutomationKeyframes}
    (h : kfSorted (a :: rest) = true) : kfSorted rest = true := by
  cases rest with
  | nil => rfl
  | cons b r =>
    have h2 : a.1 < b.1 ∧ kfSorted (b :: r) = true := by simpa [kfSorted] using h
    exact h2.2

theorem kfSorted_adj (ks : AutomationKeyframes) (hs : kfSorted ks = true)
    (i : ℕ) (p q : ℕ × ℚ) (hp : ks.get? i = some p)
    (hq : ks.get? (i + 1) = some q) : p.1 < q.1 := by
  induction ks generalizing i with
  | nil => simp at hp
  | cons a rest ih =>
    cases rest with
    | nil =>
      cases i with
      | zero => simp at hq
      | succ j => simp at hp
    | cons b r =>
      have hab : a.1 < b.1 ∧ kfSorted (b :: r) = true := by
        simpa [kfSorted] using hs
      cases i with
      | zero =>
        have hpa : a = p := by simpa using hp
        have hqb : b = q := by simpa using hq
        simpa [← hpa, ← hqb] using hab.1
      | succ j =>
        exact ih hab.2 j (by simpa using hp) (by simpa using hq)

theorem kfSorted_key_le (ks : AutomationKeyframes) (hs : kfSorted ks = true)
    (i j : ℕ) (p q : ℕ × ℚ) (hij : i ≤ j) (hp : ks.get? i = some p)
    (hq : ks.get? j = some q) : p.1 ≤ q.1 := by
  induction j, hij using Nat.le_induction generalizing q with
  | base =>
    have : p = q := by rw [hp] at hq; exact Option.some.inj hq
    exact this ▸ le_refl _
  | succ m hm ih =>
    have hmlen : m < ks.length := by
      have h1 : m + 1 < ks.length := by
        by_contra hc
        rw [List.get?_eq_none.mpr (by omega)] at hq
        exact Option.noConfusion hq
      omega
    obtain ⟨r, hr⟩ : ∃ r, ks.get? m = some r := by
      cases hget : ks.get? m with
      | none => exact absurd (List.get?_eq_none.mp hget) (by omega)
      | some r => exact ⟨r, rfl⟩
    exact le_trans (ih r hr) (le_of_lt (kfSorted_adj ks hs m r q hr hq))

theorem upperIdx_le_length (ks : AutomationKeyframes) (t : ℕ) :
    upperIdx ks t ≤ ks.length := by
  induction ks with
  | nil => simp [upperIdx]
  | cons kv rest ih =>
    by_cases h : kv.1 ≤ t <;> simp [upperIdx, h] <;> omega

theorem upperIdx_eq (ks : AutomationKeyframes) (t i : ℕ)
    (hile : i ≤ ks.length)
    (hlow : ∀ j p, j < i → ks.get? j = some p → p.1 ≤ t)
    (hhigh : ∀ p, ks.get? i = some p → t < p.1) :
    upperIdx ks t = i := by
  induction ks generalizing i with
  | nil => simp at hile; simpa [upperIdx] using hile.symm
  | cons kv rest ih =>
    cases i with
    | zero =>
      have hkv : t < kv.1 := hhigh kv rfl
      simp [upperIdx, Nat.not_le.mpr hkv]
    | succ i' =>
      have h0 : kv.1 ≤ t := hlow 0 kv (Nat.succ_pos _) rfl
      have hrest : upperIdx rest t = i' := by
        refine ih i' (by simpa using hile) ?_ ?_
        · exact fun j p hj hp => hlow (j + 1) p (by omega) (by simpa using hp)
        · exact fun p hp => hhigh p (by simpa using hp)
      simp [upperIdx, h0, hrest]

theorem getLast_get? (ks : AutomationKeyframes) (hne : ks ≠ []) :
    ks.get? (ks.length - 1) = some (ks.getLast hne) := by
  induction ks with
  | nil => exact absurd rfl hne
  | cons kv rest ih =>
    cases rest with
    | nil => rfl
    | cons b r =>
      have := ih (by simp)
      simpa [List.getLast] using this

theorem valueAt_before_first (ks : AutomationKeyframes) (hne : ks ≠ [])
    (t : ℕ) (ht : t < (ks.head hne).1) :
    valueAt ks t = some (ks.head hne).2 := by
  have hhead : ks.get? 0 = some (ks.head hne) := by
    cases ks with
    | nil => exact absurd rfl hne
    | cons kv rest => rfl
  have hidx : upperIdx ks t = 0 := by
    refine upperIdx_eq ks t 0 (Nat.zero_le _) (fun j p hj _ => absurd hj (by omega)) ?_
    intro p hp
    rw [hhead] at hp
    exact Option.some.inj hp ▸ ht
  rw [List.get?_eq_getElem?] at hhead
  simp [valueAt, hidx, hhead]

theorem valueAt_after_last (ks : AutomationKeyframes)
    (hs : kfSorted ks = true) (hne : ks ≠ [])
    (t : ℕ) (ht : (ks.getLast hne).1 ≤ t) :
    valueAt ks t = some (ks.getLast hne).2 := by
  have hlen : 0 < ks.length := List.length_pos.mpr hne
  have hlast := getLast_get? ks hne
  have hidx : upperIdx ks t = ks.length := by
    refine upperIdx_eq ks t ks.length (le_refl _) ?_ ?_
    · intro j p hj hp
      exact le_trans (kfSorted_key_le ks hs j (ks.length - 1) p _ (by omega) hp hlast) ht
    · intro p hp
      rw [List.get?_eq_none.mpr (le_refl _)] at hp
      exact Option.noConfusion hp
  have hnz : ks.length ≠ 0 := by omega
  rw [List.get?_eq_getElem?] at hlast
  simp [valueAt, hidx, hnz, hlast]

theorem valueAt_between (ks : AutomationKeyframes)
    (hs : kfSorted ks = true)
    (i : ℕ) (p n : ℕ × ℚ) (hp : ks.get? i = some p)
    (hn : ks.get? (i + 1) = some n)
    (t : ℕ) (hpt : p.1 ≤ t) (htn : t < n.1) :
    valueAt ks t =
      some (lerp p.2 n.2 (((t : ℚ) - (p.1 : ℚ)) / ((n.1 : ℚ) - (p.1 : ℚ)))) := by
  have hlen : i + 1 < ks.length := by
    by_contra hc
    rw [List.get?_eq_none.mpr (by omega)] at hn
    exact Option.noConfusion hn
  have hidx : upperIdx ks t = i + 1 := by
    refine upperIdx_eq ks t (i + 1) (by omega) ?_ ?_
    · intro j q hj hq
      exact le_trans (kfSorted_key_le ks hs j i q p (by omega) hq hp) hpt
    · intro q hq
      rw [hn] at hq
      exact Option.some.inj hq ▸ htn
  have hpn : p.1 < n.1 := kfSorted_adj ks hs i p n hp hn
  have hne2 : i + 1 ≠ ks.length := by omega
  have hcast1 : ((t - p.1 : ℕ) : ℚ) = (t : ℚ) - (p.1 : ℚ) := Nat.cast_sub hpt
  have hcast2 : ((n.1 - p.1 : ℕ) : ℚ) = (n.1 : ℚ) - (p.1 : ℚ) :=
    Nat.cast_sub (le_of_lt hpn)
  have hpE : ks[i]? = some p := by rw [← List.get?_eq_getElem?]; exact hp
  have hnE : ks[i + 1]? = some n := by rw [← List.get?_eq_getElem?]; exact hn
  simp [valueAt, hidx, hne2, hpE, hnE, hcast1, hcast2]

/-- C1.  For every sorted non-empty keyframe schedule and every sample index,
`Automation::get_parameter_values` returns the piecewise-linear reference
value: the first keyframe's value before the first keyframe, the last
keyframe's value at or after the last keyframe,
`lerp(prev.value, next.value, (t - prev.time) / (next.time - prev.time))`
between two adjacent keyframes, and exactly the keyframe's own value at a
keyframe's own time. -/
theorem valueAt_piecewise_linear (ks : AutomationKeyframes)
    (hs : kfSorted ks = true) (hne : ks ≠ []) :
    (∀ t, t < (ks.head hne).1 → valueAt ks t = some (ks.head hne).2) ∧
    (∀ t, (ks.getLast hne).1 ≤ t → valueAt ks t = some (ks.getLast hne).2) ∧
    (∀ i p n t, ks.get? i = some p → ks.get? (i + 1) = some n →
      p.1 ≤ t → t < n.1 →
      valueAt ks t =
        some (lerp p.2 n.2 (((t : ℚ) - (p.1 : ℚ)) / ((n.1 : ℚ) - (p.1 : ℚ))))) ∧
    (∀ kv ∈ ks, valueAt ks kv.1 = some kv.2) := by
  refine ⟨fun t ht => valueAt_before_first ks hne t ht,
          fun t ht => valueAt_after_last ks hs hne t ht,
          fun i p n t hp hn hpt htn => valueAt_between ks hs i p n hp hn t hpt htn,
          ?_⟩
  intro kv hkv
  obtain ⟨i, hi⟩ := List.mem_iff_get?.mp hkv
  cases hnext : ks.get? (i + 1) with
  | some n =>
    have hpn : kv.1 < n.1 := kfSorted_adj ks hs i kv n hi hnext
    have := valueAt_between ks hs i kv n hi hnext kv.1 (le_refl _) hpn
    simpa [lerp] using this
  | none =>
    have hlen : i < ks.length := by
      by_contra hc
      rw [List.get?_eq_none.mpr (by omega)] at hi
      exact Option.noConfusion hi
    have hlast : i = ks.length - 1 := by
      have := List.get?_eq_none.mp hnext
      omega
    have hkl : ks.getLast hne = kv := by
      have h2 := getLast_get? ks hne
      rw [← hlast, hi] at h2
      exact (Option.some.inj h2).symm
    have := valueAt_after_last ks hs hne kv.1 (by rw [hkl])
    rwa [hkl] at this

/-- Witness for `valueAt_piecewise_linear`: the schedule `{0 ↦ 0, 10 ↦ 1}`
evaluated at sample 5 interpolates to 1/2. -/
theorem valueAt_piecewise_linear_witness :
    valueAt [(0, (0 : ℚ)), (10, 1)] 5 =
      some (lerp 0 1 (((5 : ℚ) - 0) / ((10 : ℚ) - 0))) := by
  have h := valueAt_piecewise_linear [(0, (0 : ℚ)), (10, 1)] (by decide)
    (by decide)
  have h3 := h.2.2.1 0 (0, (0 : ℚ)) (10, (1 : ℚ)) 5 rfl rfl (by norm_num)
    (by norm_num)
  simpa using h3

theorem valueAt_isSome_of_ne_nil (ks : AutomationKeyframes) (hne : ks ≠ [])
    (t : ℕ) : (valueAt ks t).isSome = true := by
  have hlen : 0 < ks.length := List.length_pos.mpr hne
  have hub := upperIdx_le_length ks t
  by_cases h0 : upperIdx ks t = 0
  · cases hget : ks.get? 0 with
    | none => exact absurd (List.get?_eq_none.mp hget) (by omega)
    | some p =>
      rw [List.get?_eq_getElem?] at hget
      simp [valueAt, h0, hget]
  · by_cases h1 : upperIdx ks t = ks.length
    · cases hget : ks.get? (upperIdx ks t - 1) with
      | none => exact absurd (List.get?_eq_none.mp hget) (by omega)
      | some p =>
        rw [List.get?_eq_getElem?, h1] at hget
        simp [valueAt, h0, h1, hget, hne]
    · cases hget1 : ks.get? (upperIdx ks t - 1) with
      | none => exact absurd (List.get?_eq_none.mp hget1) (by omega)
      | some p =>
        cases hget2 : ks.get? (upperIdx ks t) with
        | none => exact absurd (List.get?_eq_none.mp hget2) (by omega)
        | some n =>
          rw [List.get?_eq_getElem?] at hget1 hget2
          simp [valueAt, h0, h1, hget1, hget2]

/-- C10.  `Automation::get_parameter_values` stays within bounds only for
non-empty keyframe maps: on an empty map its first branch dereferences
`begin() = end()` (surfacing as `none` in the embedding, and `none` happens
exactly on the empty map), while `Automation::parse_automation_definition`
does not guarantee non-emptiness — a parameter entry whose nested time mapping
is empty parses successfully to an empty keyframe map. -/
theorem valueAt_empty_unsafe :
    (∀ t, valueAt ([] : AutomationKeyframes) t = none) ∧
    (∀ (ks : AutomationKeyframes) (t : ℕ), valueAt ks t = none ↔ ks = []) ∧
    parse_automation_definition 44100 1000 [("p".data, AutoEntry.obj [])] =
      .ok [("p".data, [])] := by
  refine ⟨fun t => rfl, ?_, rfl⟩
  intro ks t
  constructor
  · intro h
    by_contra hne
    have hs := valueAt_isSome_of_ne_nil ks hne t
    rw [h] at hs
    simp at hs
  · intro h
    subst h
    rfl

theorem dropWhile_all_false {p : Char → Bool} {l : List Char}
    (h : ∀ c ∈ l, p c = false) : l.dropWhile p = l := by
  induction l with
  | nil => rfl
  | cons a rest ih =>
    have ha : p a = false := h a (List.mem_cons_self a rest)
    simp [List.dropWhile, ha]

theorem trim_eq_self {l : List Char}
    (h : ∀ c ∈ l, isSpaceChar c = false) : trim l = l := by
  unfold trim
  rw [dropWhile_all_false h]
  rw [dropWhile_all_false (fun c hc => h c (List.mem_reverse.mp hc))]
  exact List.reverse_reverse l

theorem seconds_suffix_eval (s : List Char) (q rate : ℚ) (inputLen : ℕ)
    (hparse : stof_sim s = some (q, s.length))
    (hws : ∀ c ∈ s, isSpaceChar c = false) :
    parse_keyframe_time (s ++ ['s']) rate inputLen =
      .ok ((⌊q * rate⌋).toNat) := by
  have hws2 : ∀ c ∈ s ++ ['s'], isSpaceChar c = false := by
    intro c hc
    rcases List.mem_append.mp hc with h | h
    · exact hws c h
    · rcases List.mem_singleton.mp h with rfl
      rfl
  have htrim : trim (s ++ ['s']) = s ++ ['s'] := trim_eq_self hws2
  have hlast : (s ++ ['s']).getLast? = some 's' := by
    cases s with
    | nil => rfl
    | cons a rest => rw [List.getLast?_concat]
  have hsec : ends_with_char (s ++ ['s']) 's' = true := by
    simp [ends_with_char, hlast]
  have hdrop : (s ++ ['s']).dropLast = s := List.dropLast_concat
  have hstrict : parse_float_strict s = .ok q := by
    unfold parse_float_strict
    rw [hparse]
    simp
  simp only [parse_keyframe_time, htrim, hsec, hdrop, trim_eq_self hws,
    hstrict, Bool.true_or, if_pos, seconds_to_samples, if_true]

/-- Counterexample to C6 as stated: at `"0.5s"` and 44101 Hz the source
truncates `0.5 × 44101 = 22050.5` to 22050, while the claimed
`round(seconds × sample_rate)` is 22051. -/
theorem seconds_rounding_counterexample :
    parse_keyframe_time ("0.5".data ++ ['s']) 44101 0 = .ok 22050 ∧
    round ((1 / 2 : ℚ) * 44101) = 22051 ∧ (22050 : ℕ) ≠ 22051 := by
  refine ⟨?_, by norm_num [round_eq], by decide⟩
  rw [seconds_suffix_eval "0.5".data
    ((1 : ℚ) * ((5 : ℕ) : ℚ) / (10 : ℚ) ^ (1 : ℕ)) 44101 0 rfl (by decide)]
  norm_num
  decide

/-- C6 (amended).  For every fully-consumed whitespace-free float literal
followed by the suffix `s`, keyframe-time parsing converts it to
`⌊seconds × sample_rate⌋` samples — truncation toward zero, not rounding
(`"1.5s"` at 44100 Hz still yields 66150, where truncation and rounding
agree — see the witness). -/
theorem parse_seconds_truncates (s : List Char) (q rate : ℚ) (inputLen : ℕ)
    (hparse : stof_sim s = some (q, s.length))
    (hws : ∀ c ∈ s, isSpaceChar c = false)
    (hnn : 0 ≤ q * rate) :
    parse_keyframe_time (s ++ ['s']) rate inputLen =
      .ok ((⌊q * rate⌋).toNat) :=
  seconds_suffix_eval s q rate inputLen hparse hws

/-- Witness for `parse_seconds_truncates`: `"1.5s"` at 44100 Hz yields
66150 samples. -/
theorem parse_seconds_truncates_witness :
    parse_keyframe_time ("1.5".data ++ ['s']) 44100 0 = .ok 66150 := by
  rw [parse_seconds_truncates "1.5".data
    ((1 : ℚ) * ((15 : ℕ) : ℚ) / (10 : ℚ) ^ (1 : ℕ)) 44100 0 rfl (by decide)
    (by norm_num)]
  norm_num
  decide

/-- C7 is the spec's intent, but the source deviates: `parse_ulong_strict`
relies on `std::stoul`, which accepts a leading minus sign and negates the
value in unsigned arithmetic, so `"-1"` consumes the entire string, passes the
strict full-consumption check, and is *accepted* as the sample index
`2 ^ 64 - 1` (18446744073709551615) instead of failing; genuinely
non-numeric suffix-free input such as `"abc"` does fail with the
`"invalid sample index"` error carrying the offending substring. -/
theorem parse_negative_wraps :
    (∀ (rate : ℚ) (inputLen : ℕ),
      parse_keyframe_time "-1".data rate inputLen = .ok (2 ^ 64 - 1)) ∧
    (∀ (rate : ℚ) (inputLen : ℕ),
      parse_keyframe_time "abc".data rate inputLen =
        .error (.invalidSample "abc".data)) :=
  ⟨fun _ _ => rfl, fun _ _ => rfl⟩

/-- Boolean substring test, used to examine the text of error messages. -/
def has_substring (l pat : List Char) : Bool :=
  (List.range (l.length + 1)).any
    (fun i => decide ((l.drop i).take pat.length = pat))

theorem has_substring_of_decomp (l pat pre post : List Char)
    (h : l = pre ++ pat ++ post) : has_substring l pat = true := by
  subst h
  unfold has_substring
  rw [List.any_eq_true]
  refine ⟨pre.length, List.mem_range.mpr ?_, ?_⟩
  · simp
    omega
  · rw [decide_eq_true_iff]
    rw [List.append_assoc, List.drop_left]
    exact List.take_left pat post

theorem kf_contains_insert_self (ks : AutomationKeyframes) (t : ℕ) (v : ℚ) :
    kf_contains (kf_insert ks t v) t = true := by
  induction ks with
  | nil => simp [kf_insert, kf_contains]
  | cons kv rest ih =>
    by_cases h1 : t < kv.1
    · simp [kf_insert, h1, kf_contains]
    · by_cases h2 : t = kv.1
      · simp [kf_insert, h1, h2, kf_contains]
      · simp only [kf_insert, if_neg h1, if_neg h2, kf_contains, List.any_cons]
        rw [kf_contains] at ih
        simp [ih]

theorem kf_contains_true_iff (ks : AutomationKeyframes) (t2 : ℕ) :
    kf_contains ks t2 = true ↔ ∃ kv ∈ ks, kv.1 = t2 := by
  simp [kf_contains]

theorem kf_insert_self_mem (ks : AutomationKeyframes) (t : ℕ) (v : ℚ) :
    (t, v) ∈ kf_insert ks t v := by
  induction ks with
  | nil => simp [kf_insert]
  | cons kv rest ih =>
    by_cases h1 : t < kv.1
    · simp [kf_insert, h1]
    · by_cases h2 : t = kv.1
      · simp [kf_insert, h1, h2]
      · simp [kf_insert, h1, h2, ih]

theorem kf_insert_mem_or (ks : AutomationKeyframes) (t : ℕ) (v : ℚ)
    (kv2 : ℕ × ℚ) (h : kv2 ∈ ks) : kv2 ∈ kf_insert ks t v ∨ kv2.1 = t := by
  induction ks with
  | nil => simp at h
  | cons kv rest ih =>
    rcases List.mem_cons.mp h with heq | htail
    · by_cases h1 : t < kv.1
      · left
        simp [kf_insert, h1, heq]
      · by_cases h2 : t = kv.1
        · right
          rw [heq, ← h2]
        · left
          simp [kf_insert, h1, h2, heq]
    · by_cases h1 : t < kv.1
      · left
        simp [kf_insert, h1, htail]
      · by_cases h2 : t = kv.1
        · left
          simp [kf_insert, h1, h2, htail]
        · rcases ih htail with hl | hr
          · left
            simp [kf_insert, h1, h2, hl]
          · right
            exact hr

theorem kf_contains_insert_mono (ks : AutomationKeyframes) (t : ℕ) (v : ℚ)
    (t2 : ℕ) (h : kf_contains ks t2 = true) :
    kf_contains (kf_insert ks t v) t2 = true := by
  obtain ⟨kv2, hmem, hk⟩ := (kf_contains_true_iff ks t2).mp h
  rcases kf_insert_mem_or ks t v kv2 hmem with hl | hr
  · exact (kf_contains_true_iff _ t2).mpr ⟨kv2, hl, hk⟩
  · have ht2 : t2 = t := by rw [← hk, hr]
    rw [ht2]
    exact kf_contains_insert_self ks t v

theorem kf_contains_insert_false (ks : AutomationKeyframes) (t : ℕ) (v : ℚ)
    (t2 : ℕ) (h : kf_contains (kf_insert ks t v) t2 = false) :
    kf_contains ks t2 = false ∧ t2 ≠ t := by
  constructor
  · cases hb : kf_contains ks t2 with
    | false => rfl
    | true =>
      rw [kf_contains_insert_mono ks t v t2 hb] at h
      exact Bool.noConfusion h
  · intro hEq
    rw [hEq, kf_contains_insert_self ks t v] at h
    exact Bool.noConfusion h

theorem parse_entry_object_ok_not_contains (rate : ℚ) (inputLen : ℕ)
    (kvs : List (List Char × JsonVal)) (ks res : AutomationKeyframes)
    (hok : parse_entry_object rate inputLen kvs ks = .ok res)
    (j : ℕ) (tstr : List Char) (v : JsonVal) (t : ℕ)
    (hj : kvs.get? j = some (tstr, v))
    (ht : parse_keyframe_time tstr rate inputLen = .ok t) :
    kf_contains ks t = false := by
  induction kvs generalizing ks j with
  | nil => simp at hj
  | cons kv rest ih =>
    cases hparse : parse_keyframe_time kv.1 rate inputLen with
    | error e => simp [parse_entry_object, hparse] at hok
    | ok t0 =>
      cases hcont : kf_contains ks t0 with
      | true => simp [parse_entry_object, hparse, hcont] at hok
      | false =>
        cases hval : get_parameter_value_from_json_primitive kv.2 with
        | error e => simp [parse_entry_object, hparse, hcont, hval] at hok
        | ok qb =>
          simp only [parse_entry_object, hparse, hcont, hval] at hok
          rw [if_neg (by simp)] at hok
          cases j with
          | zero =>
            have hkv : kv = (tstr, v) := by simpa using hj
            have ht0 : t0 = t := by
              rw [hkv] at hparse
              rw [hparse] at ht
              exact Except.ok.inj ht
            rw [← ht0]
            exact hcont
          | succ j2 =>
            have hrec := ih (kf_insert ks t0 qb.1) hok j2 (by simpa using hj)
            exact (kf_contains_insert_false ks t0 qb.1 t hrec).1

theorem parse_entry_object_ok_distinct (rate : ℚ) (inputLen : ℕ)
    (kvs : List (List Char × JsonVal)) (ks res : AutomationKeyframes)
    (hok : parse_entry_object rate inputLen kvs ks = .ok res)
    (i j : ℕ) (si sj : List Char) (vi vj : JsonVal) (ti tj : ℕ)
    (hij : i < j) (hi : kvs.get? i = some (si, vi))
    (hj : kvs.get? j = some (sj, vj))
    (hti : parse_keyframe_time si rate inputLen = .ok ti)
    (htj : parse_keyframe_time sj rate inputLen = .ok tj) : ti ≠ tj := by
  induction kvs generalizing ks i j with
  | nil => simp at hi
  | cons kv rest ih =>
    cases hparse : parse_keyframe_time kv.1 rate inputLen with
    | error e => simp [parse_entry_object, hparse] at hok
    | ok t0 =>
      cases hcont : kf_contains ks t0 with
      | true => simp [parse_entry_object, hparse, hcont] at hok
      | false =>
        cases hval : get_parameter_value_from_json_primitive kv.2 with
        | error e => simp [parse_entry_object, hparse, hcont, hval] at hok
        | ok qb =>
          simp only [parse_entry_object, hparse, hcont, hval] at hok
          rw [if_neg (by simp)] at hok
          cases i with
          | zero =>
            have hkv : kv = (si, vi) := by simpa using hi
            have ht0 : t0 = ti := by
              rw [hkv] at hparse
              rw [hparse] at hti
              exact Except.ok.inj hti
            cases j with
            | zero => omega
            | succ j2 =>
              have hnc := parse_entry_object_ok_not_contains rate inputLen rest
                (kf_insert ks t0 qb.1) res hok j2 sj vj tj (by simpa using hj) htj
              have h2 := (kf_contains_insert_false ks t0 qb.1 tj hnc).2
              intro hEq
              exact h2 (by omega)
          | succ i2 =>
            cases j with
            | zero => omega
            | succ j2 =>
              exact ih (kf_insert ks t0 qb.1) hok i2 j2 (by omega)
                (by simpa using hi) (by simpa using hj)

theorem parse_automation_ok_entries (rate : ℚ) (inputLen : ℕ)
    (doc : List (List Char × AutoEntry))
    (res : List (List Char × AutomationKeyframes))
    (hok : parse_automation_definition rate inputLen doc = .ok res)
    (p : List Char) (kvs : List (List Char × JsonVal))
    (hin : (p, AutoEntry.obj kvs) ∈ doc) :
    ∃ ks, parse_entry_object rate inputLen kvs [] = .ok ks := by
  induction doc generalizing res with
  | nil => simp at hin
  | cons entry rest ih =>
    obtain ⟨name, e⟩ := entry
    rcases List.mem_cons.mp hin with hhead | htail
    · obtain ⟨hp, he⟩ := Prod.mk.injEq .. ▸ hhead.symm
      subst he
      cases hobj : parse_entry_object rate inputLen kvs [] with
      | error e2 => simp [parse_automation_definition, hobj] at hok
      | ok ks => exact ⟨ks, rfl⟩
    · cases e with
      | prim v =>
        cases hv : get_parameter_value_from_json_primitive v with
        | error e2 => simp [parse_automation_definition, hv] at hok
        | ok qb =>
          simp only [parse_automation_definition, hv] at hok
          cases hrest : parse_automation_definition rate inputLen rest with
          | error e2 => rw [hrest] at hok; exact Except.noConfusion hok
          | ok res2 => exact ih res2 hrest htail
      | obj kvs2 =>
        cases hobj : parse_entry_object rate inputLen kvs2 [] with
        | error e2 => simp [parse_automation_definition, hobj] at hok
        | ok ks =>
          simp only [parse_automation_definition, hobj] at hok
          cases hrest : parse_automation_definition rate inputLen rest with
          | error e2 => rw [hrest] at hok; exact Except.noConfusion hok
          | ok res2 => exact ih res2 hrest htail

theorem parse_zero_s_eval :
    parse_keyframe_time "0s".data 44100 1000 = .ok 0 := by
  have h := seconds_suffix_eval "0".data
    ((1 : ℚ) * ((0 : ℕ) : ℚ) / (10 : ℚ) ^ (0 : ℕ)) 44100 1000 rfl (by decide)
  have e : "0".data ++ ['s'] = "0s".data := rfl
  rw [e] at h
  rw [h]
  norm_num

/-- Counterexample to C8 as stated: the duplicate-keyframe message for the
parameter `"cutoff"` (time strings `"0"` and `"0s"` both resolving to sample 0)
contains the resolved sample-time and the original time string but does *not*
name the parameter. -/
theorem dup_message_omits_parameter :
    parse_automation_definition 44100 1000
      [("cutoff".data,
        AutoEntry.obj [("0".data, JsonVal.num 0), ("0s".data, JsonVal.num 1)])] =
      .error (.dupKeyframe (dup_keyframe_msg 0 "0s".data)) ∧
    has_substring (dup_keyframe_msg 0 "0s".data) "cutoff".data = false ∧
    has_substring (dup_keyframe_msg 0 "0s".data) (Nat.repr 0).data = true ∧
    has_substring (dup_keyframe_msg 0 "0s".data) "0s".data = true := by
  refine ⟨?_, by decide, by decide, by decide⟩
  have h0 : parse_keyframe_time ['0'] 44100 1000 = .ok 0 := rfl
  have h0s : parse_keyframe_time ['0', 's'] 44100 1000 = .ok 0 :=
    parse_zero_s_eval
  have hv0 : get_parameter_value_from_json_primitive (JsonVal.num 0) =
      .ok (0, false) := rfl
  simp [parse_automation_definition, parse_entry_object, h0, h0s, hv0,
    kf_contains, kf_insert]

/-- C8 (amended).  For every automation document in which two time strings of
the same parameter resolve to the same sample time,
`Automation::parse_automation_definition` fails with an error — it never
silently keeps or overwrites either value; the duplicate-keyframe error message
names the resolved sample-time and the original time string (but, contrary to
the original claim, not the parameter — see the counterexample). -/
theorem duplicate_keyframe_rejected (rate : ℚ) (inputLen : ℕ)
    (doc : List (List Char × AutoEntry)) (p : List Char)
    (kvs : List (List Char × JsonVal)) (hin : (p, AutoEntry.obj kvs) ∈ doc)
    (i j : ℕ) (si sj : List Char) (vi vj : JsonVal) (t : ℕ) (hij : i < j)
    (hi : kvs.get? i = some (si, vi)) (hj : kvs.get? j = some (sj, vj))
    (hti : parse_keyframe_time si rate inputLen = .ok t)
    (htj : parse_keyframe_time sj rate inputLen = .ok t) :
    (∃ e, parse_automation_definition rate inputLen doc = .error e) ∧
    (∀ (t2 : ℕ) (s2 : List Char),
      has_substring (dup_keyframe_msg t2 s2) (Nat.repr t2).data = true ∧
      has_substring (dup_keyframe_msg t2 s2) s2 = true) := by
  constructor
  · cases hres : parse_automation_definition rate inputLen doc with
    | error e => exact ⟨e, rfl⟩
    | ok res =>
      obtain ⟨ks, hks⟩ := parse_automation_ok_entries rate inputLen doc res
        hres p kvs hin
      exact absurd rfl (parse_entry_object_ok_distinct rate inputLen kvs [] ks
        hks i j si sj vi vj t t hij hi hj hti htj)
  · intro t2 s2
    constructor
    · exact has_substring_of_decomp _ _ "duplicate keyframe time: ".data
        (" (obtained from input string ".data ++ s2 ++ [')'])
        (by simp [dup_keyframe_msg])
    · exact has_substring_of_decomp _ _
        ("duplicate keyframe time: ".data ++ (Nat.repr t2).data ++
          " (obtained from input string ".data) [')']
        (by simp [dup_keyframe_msg])

/-- Witness for `duplicate_keyframe_rejected`: the `"cutoff"` document with
time strings `"0"` and `"0s"`. -/
theorem duplicate_keyframe_rejected_witness :
    (∃ e, parse_automation_definition 44100 1000
      [("cutoff".data,
        AutoEntry.obj [("0".data, JsonVal.num 0), ("0s".data, JsonVal.num 1)])] =
        .error e) ∧
    (∀ (t2 : ℕ) (s2 : List Char),
      has_substring (dup_keyframe_msg t2 s2) (Nat.repr t2).data = true ∧
      has_substring (dup_keyframe_msg t2 s2) s2 = true) :=
  duplicate_keyframe_rejected 44100 1000 _ "cutoff".data _ (List.Mem.head _)
    0 1 "0".data "0s".data (JsonVal.num 0) (JsonVal.num 1) 0 (by omega)
    rfl rfl rfl parse_zero_s_eval

/-- C9.  With at least one source already attached,
`MultiAudioReader::add_file` rejects a source whose sample rate differs from
the first source's by more than 1.0 Hz, returning `false` and leaving the whole
reader state — the attached-source list and hence the session sample rate,
total channel count and maximum frame count — unchanged; a difference of at
most 1.0 Hz is accepted. -/
theorem add_file_rate_tolerance (readers : List AudioSource)
    (r0 : AudioSource) (hne : readers.get? 0 = some r0) (s : AudioSource) :
    (1 < |s.rate - r0.rate| →
      add_file readers (some s) = (false, readers) ∧
      mr_sample_rate (add_file readers (some s)).2 = mr_sample_rate readers ∧
      totalChannels (add_file readers (some s)).2 = totalChannels readers ∧
      mr_max_frames (add_file readers (some s)).2 = mr_max_frames readers) ∧
    (|s.rate - r0.rate| ≤ 1 → (add_file readers (some s)).1 = true) := by
  cases readers with
  | nil => simp at hne
  | cons rh rest =>
    have hr0 : rh = r0 := by simpa using hne
    subst hr0
    constructor
    · intro hgt
      have : add_file (rh :: rest) (some s) = (false, rh :: rest) := by
        simp [add_file, hgt]
      exact ⟨this, by rw [this], by rw [this], by rw [this]⟩
    · intro hle
      simp [add_file, not_lt.mpr hle]

/-- Witness for `add_file_rate_tolerance`: a 44102 Hz source is rejected
against a 44100 Hz first source (state unchanged), a 44101 Hz source is
accepted. -/
theorem add_file_rate_tolerance_witness :
    add_file [⟨44100, 2, []⟩] (some ⟨44102, 1, []⟩) = (false, [⟨44100, 2, []⟩]) ∧
    (add_file [⟨44100, 2, []⟩] (some ⟨44101, 1, []⟩)).1 = true := by
  have h1 := add_file_rate_tolerance [⟨44100, 2, []⟩] ⟨44100, 2, []⟩ rfl
    ⟨44102, 1, []⟩
  have h2 := add_file_rate_tolerance [⟨44100, 2, []⟩] ⟨44100, 2, []⟩ rfl
    ⟨44101, 1, []⟩
  refine ⟨(h1.1 ?_).1, h2.2 ?_⟩
  · show 1 < |(44102 : ℚ) - 44100|
    rw [show (44102 : ℚ) - 44100 = 2 by norm_num]
    norm_num
  · show |(44101 : ℚ) - 44100| ≤ 1
    rw [show (44101 : ℚ) - 44100 = 1 by norm_num]
    norm_num

theorem renderGo_events_mem (blockSize totalFrames : ℕ) (hasInput : Bool)
    (readGot : ℕ → ℕ → ℕ) (procOk : ℕ → Bool) (writeGot : ℕ → ℕ → ℕ) :
    ∀ (fuel fp : ℕ) (evs : List RenderEv), ∀ e ∈ evs,
      e ∈ (renderGo blockSize totalFrames hasInput readGot procOk writeGot
        fuel fp evs).events := by
  intro fuel
  induction fuel with
  | zero =>
    intro fp evs e he
    rw [renderGo]
    by_cases h : fp < totalFrames
    · simpa [h] using he
    · simpa [h] using he
  | succ fuel ih =>
    intro fp evs e he
    rw [renderGo]
    by_cases h : fp < totalFrames
    · simp only [if_pos h]
      by_cases hw : writeGot fp (min blockSize (totalFrames - fp)) =
          min blockSize (totalFrames - fp)
      · simp only [if_pos hw]
        apply ih
        simp [he]
      · simp only [if_neg hw]
        simp [he]
    · simpa [h] using he

theorem renderGo_completes (blockSize totalFrames : ℕ) (hasInput : Bool)
    (readGot : ℕ → ℕ → ℕ) (procOk : ℕ → Bool) (writeGot : ℕ → ℕ → ℕ)
    (hb : 0 < blockSize) (hw : ∀ off n, writeGot off n = n) :
    ∀ (fuel fp : ℕ) (evs : List RenderEv), totalFrames - fp ≤ fuel →
      fp ≤ totalFrames →
      (renderGo blockSize totalFrames hasInput readGot procOk writeGot
        fuel fp evs).framesProcessed = totalFrames ∧
      (renderGo blockSize totalFrames hasInput readGot procOk writeGot
        fuel fp evs).failed = false := by
  intro fuel
  induction fuel with
  | zero =>
    intro fp evs hfuel hle
    have : fp = totalFrames := by omega
    rw [renderGo]
    simp [this]
  | succ fuel ih =>
    intro fp evs hfuel hle
    rw [renderGo]
    by_cases h : fp < totalFrames
    · simp only [if_pos h, hw, if_pos rfl]
      have hnpos : 0 < min blockSize (totalFrames - fp) := by
        apply lt_min hb
        omega
      exact ih (fp + min blockSize (totalFrames - fp)) _ (by omega) (by omega)
    · have : fp = totalFrames := by omega
      simp [h, this]

theorem renderGo_warn (blockSize totalFrames : ℕ) (hasInput : Bool)
    (readGot : ℕ → ℕ → ℕ) (procOk : ℕ → Bool) (writeGot : ℕ → ℕ → ℕ)
    (hb : 0 < blockSize) (hw : ∀ off n, writeGot off n = n) :
    ∀ (k fuel fp : ℕ) (evs : List RenderEv), totalFrames - fp ≤ fuel →
      fp + k * blockSize < totalFrames →
      procOk (fp + k * blockSize) = false →
      RenderEv.procWarnEv (fp + k * blockSize) ∈
        (renderGo blockSize totalFrames hasInput readGot procOk writeGot
          fuel fp evs).events := by
  intro k
  induction k with
  | zero =>
    intro fuel fp evs hfuel hlt hpo
    simp only [Nat.zero_mul, Nat.add_zero] at hlt hpo ⊢
    cases fuel with
    | zero => omega
    | succ fuel =>
      rw [renderGo]
      simp only [if_pos hlt, hw, if_pos rfl, hpo]
      apply renderGo_events_mem
      simp
  | succ k ih =>
    intro fuel fp evs hfuel hlt hpo
    have hfp : fp < totalFrames := by
      have : fp ≤ fp + (k + 1) * blockSize := by omega
      omega
    cases fuel with
    | zero => omega
    | succ fuel =>
      have hbig : blockSize < totalFrames - fp := by
        have h1 : fp + blockSize ≤ fp + (k + 1) * blockSize := by
          have : blockSize ≤ (k + 1) * blockSize :=
            Nat.le_mul_of_pos_left blockSize (by omega)
          omega
        omega
      have hmin : min blockSize (totalFrames - fp) = blockSize :=
        min_eq_left (by omega)
      rw [renderGo]
      simp only [if_pos hfp, hw, if_pos rfl, hmin]
      have hoff : fp + (k + 1) * blockSize =
          (fp + blockSize) + k * blockSize := by ring
      rw [hoff] at hpo hlt ⊢
      exact ih fuel (fp + blockSize) _ (by omega) hlt hpo

/-- C2.  For every render configuration with a positive block size whose writer
always commits full blocks, any pattern of per-block plugin-processing failures
is non-fatal: the loop logs a warning naming the failing block's frame offset
and continues, terminating normally with `frames_processed = total_frames` and
no failure exit. -/
theorem render_process_failure_nonfatal (blockSize totalFrames : ℕ)
    (hasInput : Bool) (readGot : ℕ → ℕ → ℕ) (procOk : ℕ → Bool)
    (writeGot : ℕ → ℕ → ℕ) (hb : 0 < blockSize)
    (hw : ∀ off n, writeGot off n = n) :
    (renderLoop blockSize totalFrames hasInput readGot procOk
        writeGot).framesProcessed = totalFrames ∧
    (renderLoop blockSize totalFrames hasInput readGot procOk
        writeGot).failed = false ∧
    (∀ k, k * blockSize < totalFrames → procOk (k * blockSize) = false →
      RenderEv.procWarnEv (k * blockSize) ∈
        (renderLoop blockSize totalFrames hasInput readGot procOk
          writeGot).events) := by
  have hc := renderGo_completes blockSize totalFrames hasInput readGot procOk
    writeGot hb hw totalFrames 0 [] (by omega) (by omega)
  refine ⟨hc.1, hc.2, ?_⟩
  intro k hlt hpo
  have := renderGo_warn blockSize totalFrames hasInput readGot procOk writeGot
    hb hw k totalFrames 0 [] (by omega) (by simpa using hlt) (by simpa using hpo)
  simpa using this

/-- Witness for `render_process_failure_nonfatal`: 10 frames in blocks of 4
with the plugin failing on the block at offset 4; the render completes with all
10 frames and a warning naming offset 4. -/
theorem render_process_failure_nonfatal_witness :
    (renderLoop 4 10 true (fun _ n => n) (fun off => decide (off ≠ 4))
        (fun _ n => n)).framesProcessed = 10 ∧
    (renderLoop 4 10 true (fun _ n => n) (fun off => decide (off ≠ 4))
        (fun _ n => n)).failed = false ∧
    RenderEv.procWarnEv 4 ∈
      (renderLoop 4 10 true (fun _ n => n) (fun off => decide (off ≠ 4))
        (fun _ n => n)).events := by
  have h := render_process_failure_nonfatal 4 10 true (fun _ n => n)
    (fun off => decide (off ≠ 4)) (fun _ n => n) (by omega) (fun _ _ => rfl)
  refine ⟨h.1, h.2.1, ?_⟩
  have := h.2.2 1 (by omega) (by decide)
  simpa using this

theorem block_events_cases (evs : List RenderEv) (hasInput ok : Bool)
    (fp m rg w0 : ℕ) (e : RenderEv)
    (he : e ∈ (evs ++ (if hasInput then [RenderEv.readEv fp m rg] else []) ++
      (if ok then [] else [RenderEv.procWarnEv fp])) ++
      [RenderEv.writeEv fp m w0]) :
    e ∈ evs ∨ e = RenderEv.readEv fp m rg ∨ e = RenderEv.procWarnEv fp ∨
      e = RenderEv.writeEv fp m w0 := by
  by_cases hhi : hasInput <;> by_cases hpo : ok <;>
    simp [hhi, hpo] at he <;> tauto

theorem renderGo_short_write (blockSize totalFrames : ℕ) (hasInput : Bool)
    (readGot : ℕ → ℕ → ℕ) (procOk : ℕ → Bool) (writeGot : ℕ → ℕ → ℕ) :
    ∀ (fuel fp : ℕ) (evs : List RenderEv),
      (∀ off2 n2 w2, RenderEv.writeEv off2 n2 w2 ∈ evs → w2 = n2) →
      (∀ e ∈ evs, e.offset ≤ fp) →
      ∀ off n w,
        RenderEv.writeEv off n w ∈
          (renderGo blockSize totalFrames hasInput readGot procOk writeGot
            fuel fp evs).events →
        w ≠ n →
        (renderGo blockSize totalFrames hasInput readGot procOk writeGot
          fuel fp evs).failed = true ∧
        (renderGo blockSize totalFrames hasInput readGot procOk writeGot
          fuel fp evs).framesProcessed = off ∧
        RenderEv.shortWriteEv off n w ∈
          (renderGo blockSize totalFrames hasInput readGot procOk writeGot
            fuel fp evs).events ∧
        (∀ e ∈ (renderGo blockSize totalFrames hasInput readGot procOk
            writeGot fuel fp evs).events, e.offset ≤ off) := by
  intro fuel
  induction fuel with
  | zero =>
    intro fp evs hfull _ off n w hmem hne
    rw [renderGo] at hmem
    by_cases h : fp < totalFrames
    · rw [if_pos h] at hmem
      exact absurd (hfull off n w hmem) hne
    · rw [if_neg h] at hmem
      exact absurd (hfull off n w hmem) hne
  | succ fuel ih =>
    intro fp evs hfull hoff off n w hmem hne
    rw [renderGo] at hmem ⊢
    by_cases h : fp < totalFrames
    · rw [if_pos h] at hmem ⊢
      set m := min blockSize (totalFrames - fp) with hm
      by_cases hwr : writeGot fp m = m
      · simp only [if_pos hwr] at hmem ⊢
        refine ih (fp + m) _ ?_ ?_ off n w hmem hne
        · intro off2 n2 w2 hmem2
          rcases block_events_cases evs hasInput (procOk fp) fp m
              (readGot fp m) (writeGot fp m) _ hmem2 with hevs | hr | hp | hwv
          · exact hfull off2 n2 w2 hevs
          · exact RenderEv.noConfusion hr
          · exact RenderEv.noConfusion hp
          · rw [RenderEv.writeEv.injEq] at hwv
            rw [hwv.2.2, hwr, ← hwv.2.1]
        · intro e he
          rcases block_events_cases evs hasInput (procOk fp) fp m
              (readGot fp m) (writeGot fp m) e he with hevs | hr | hp | hwv
          · exact le_trans (hoff e hevs) (by omega)
          · rw [hr]; simp [RenderEv.offset]
          · rw [hp]; simp [RenderEv.offset]
          · rw [hwv]; simp [RenderEv.offset]
      · simp only [if_neg hwr] at hmem ⊢
        rcases List.mem_append.mp hmem with hblock | hshort
        swap
        · exact absurd (List.mem_singleton.mp hshort) (by simp)
        have hwev : off = fp ∧ n = m ∧ w = writeGot fp m := by
          rcases block_events_cases evs hasInput (procOk fp) fp m
              (readGot fp m) (writeGot fp m) _ hblock with hevs | hr | hp | hwv
          · exact absurd (hfull off n w hevs) hne
          · exact RenderEv.noConfusion hr
          · exact RenderEv.noConfusion hp
          · rw [RenderEv.writeEv.injEq] at hwv
            exact ⟨hwv.1, hwv.2.1, hwv.2.2⟩
        obtain ⟨ho1, ho2, ho3⟩ := hwev
        subst ho1
        subst ho2
        subst ho3
        refine ⟨?_, ?_, ?_, ?_⟩
        · trivial
        · trivial
        · simp
        · intro e he
          rcases List.mem_append.mp he with hblock2 | hshort2
          · rcases block_events_cases evs hasInput (procOk off) off m
                (readGot off m) (writeGot off m) e hblock2 with hevs | hr | hp | hwv
            · exact hoff e hevs
            · rw [hr]; simp [RenderEv.offset]
            · rw [hp]; simp [RenderEv.offset]
            · rw [hwv]; simp [RenderEv.offset]
          · rw [List.mem_singleton.mp hshort2]
            simp [RenderEv.offset]
    · rw [if_neg h] at hmem ⊢
      exact absurd (hfull off n w hmem) hne

/-- C3.  If the writer commits fewer frames than `frames_to_process` on some
block, the render loop stops immediately: it emits the short-write error for
that block, the loop exits on the failure path, `frames_processed` stays at
that block's offset, and no event of any later block (read, process-warning,
or write) ever occurs — every event's offset is at most the failing block's
offset. -/
theorem render_short_write_fatal (blockSize totalFrames : ℕ)
    (hasInput : Bool) (readGot : ℕ → ℕ → ℕ) (procOk : ℕ → Bool)
    (writeGot : ℕ → ℕ → ℕ) (off n w : ℕ)
    (hmem : RenderEv.writeEv off n w ∈
      (renderLoop blockSize totalFrames hasInput readGot procOk
        writeGot).events)
    (hshort : w < n) :
    (renderLoop blockSize totalFrames hasInput readGot procOk
      writeGot).failed = true ∧
    (renderLoop blockSize totalFrames hasInput readGot procOk
      writeGot).framesProcessed = off ∧
    RenderEv.shortWriteEv off n w ∈
      (renderLoop blockSize totalFrames hasInput readGot procOk
        writeGot).events ∧
    (∀ e ∈ (renderLoop blockSize totalFrames hasInput readGot procOk
        writeGot).events, e.offset ≤ off) :=
  renderGo_short_write blockSize totalFrames hasInput readGot procOk writeGot
    totalFrames 0 [] (by simp) (by simp) off n w hmem (by omega)

/-- Witness for `render_short_write_fatal`: 10 frames in blocks of 4 with the
writer committing only 3 of 4 frames at offset 4; the render fails there with
`frames_processed = 4` and no event beyond offset 4. -/
theorem render_short_write_fatal_witness :
    (renderLoop 4 10 true (fun _ n => n) (fun _ => true)
      (fun off n => if off = 4 then 3 else n)).failed = true ∧
    (renderLoop 4 10 true (fun _ n => n) (fun _ => true)
      (fun off n => if off = 4 then 3 else n)).framesProcessed = 4 ∧
    RenderEv.shortWriteEv 4 4 3 ∈
      (renderLoop 4 10 true (fun _ n => n) (fun _ => true)
        (fun off n => if off = 4 then 3 else n)).events ∧
    (∀ e ∈ (renderLoop 4 10 true (fun _ n => n) (fun _ => true)
        (fun off n => if off = 4 then 3 else n)).events, e.offset ≤ 4) :=
  render_short_write_fatal 4 10 true (fun _ n => n) (fun _ => true)
    (fun off n => if off = 4 then 3 else n) 4 4 3 (by decide) (by omega)

/-! ### Interleaved-buffer index arithmetic

An interleaved buffer position decomposes as `f * total + r` with `r < total`
(frame number and channel column); the lemmas below recover the uniqueness of
that decomposition and the bounds the write loops stay within. -/

theorem idx_lt_of_parts (f r total frames : ℕ) (hr : r < total)
    (hf : f < frames) : f * total + r < frames * total := by
  calc f * total + r < (f + 1) * total := by
        rw [Nat.succ_mul]
        omega
    _ ≤ frames * total := Nat.mul_le_mul_right total (by omega)

theorem idx_decomp_unique (f1 r1 f2 r2 total : ℕ) (h1 : r1 < total)
    (h2 : r2 < total) (heq : f1 * total + r1 = f2 * total + r2) :
    f1 = f2 ∧ r1 = r2 := by
  have htot : 0 < total := by omega
  have hd1 : (f1 * total + r1) / total = f1 := by
    rw [Nat.mul_comm f1 total, Nat.mul_add_div htot, Nat.div_eq_of_lt h1,
      Nat.add_zero]
  have hd2 : (f2 * total + r2) / total = f2 := by
    rw [Nat.mul_comm f2 total, Nat.mul_add_div htot, Nat.div_eq_of_lt h2,
      Nat.add_zero]
  have hm1 : (f1 * total + r1) % total = r1 := by
    rw [Nat.mul_comm f1 total, Nat.mul_add_mod, Nat.mod_eq_of_lt h1]
  have hm2 : (f2 * total + r2) % total = r2 := by
    rw [Nat.mul_comm f2 total, Nat.mul_add_mod, Nat.mod_eq_of_lt h2]
  constructor
  · rw [← hd1, ← hd2, heq]
  · rw [← hm1, ← hm2, heq]

theorem getD_set_self (buf : List ℚ) (i : ℕ) (a : ℚ) (hi : i < buf.length) :
    (buf.set i a).getD i 0 = a := by
  rw [List.getD_eq_getElem?_getD, List.getElem?_set_eq_of_lt a hi]
  rfl

theorem getD_set_other (buf : List ℚ) (i j : ℕ) (a d : ℚ) (hij : i ≠ j) :
    (buf.set i a).getD j d = buf.getD j d := by
  rw [List.getD_eq_getElem?_getD, List.getElem?_set_ne hij,
    ← List.getD_eq_getElem?_getD]

theorem writeChans_length (buf : List ℚ) (base : ℕ) (fr : List ℚ) :
    ∀ chans, (writeChans buf base fr chans).length = buf.length := by
  intro chans
  induction chans with
  | zero => rfl
  | succ ch ih => rw [writeChans, List.length_set, ih]

theorem writeChans_miss (buf : List ℚ) (base : ℕ) (fr : List ℚ)
    (chans idx : ℕ) (d : ℚ) (h : ∀ c, c < chans → idx ≠ base + c) :
    (writeChans buf base fr chans).getD idx d = buf.getD idx d := by
  induction chans with
  | zero => rfl
  | succ ch ih =>
    rw [writeChans, getD_set_other _ _ _ _ _ (fun hc => h ch (by omega) hc.symm)]
    exact ih (fun c hc => h c (by omega))

theorem writeChans_hit (buf : List ℚ) (base : ℕ) (fr : List ℚ)
    (chans c : ℕ) (hc : c < chans) (hlt : base + c < buf.length) :
    (writeChans buf base fr chans).getD (base + c) 0 = fr.getD c 0 := by
  induction chans with
  | zero => omega
  | succ ch ih =>
    rw [writeChans]
    by_cases hce : c = ch
    · subst hce
      exact getD_set_self _ _ _ (by rw [writeChans_length]; exact hlt)
    · rw [getD_set_other _ _ _ _ _ (by omega)]
      exact ih (by omega)

theorem writeFrames_length (total chOff chans : ℕ) :
    ∀ (data : List (List ℚ)) (f0 : ℕ) (buf : List ℚ),
      (writeFrames total chOff chans data f0 buf).length = buf.length := by
  intro data
  induction data with
  | nil => intro f0 buf; rfl
  | cons fr rest ih =>
    intro f0 buf
    rw [writeFrames, ih, writeChans_length]

theorem writeFrames_miss (total chOff chans : ℕ) :
    ∀ (data : List (List ℚ)) (f0 : ℕ) (buf : List ℚ) (idx : ℕ) (d : ℚ),
      (∀ f c, f < data.length → c < chans → idx ≠ (f0 + f) * total + chOff + c) →
      (writeFrames total chOff chans data f0 buf).getD idx d = buf.getD idx d := by
  intro data
  induction data with
  | nil => intro f0 buf idx d _; rfl
  | cons fr rest ih =>
    intro f0 buf idx d h
    have hrest : ∀ f c, f < rest.length → c < chans →
        idx ≠ ((f0 + 1) + f) * total + chOff + c := by
      intro f c hf hc
      have h2 := h (f + 1) c (by simpa using hf) hc
      have heq : f0 + (f + 1) = (f0 + 1) + f := by omega
      rw [heq] at h2
      exact h2
    have hchans : ∀ c, c < chans → idx ≠ (f0 * total + chOff) + c := by
      intro c hc
      have h2 := h 0 c (by simp) hc
      simpa using h2
    rw [writeFrames, ih (f0 + 1) _ idx d hrest,
      writeChans_miss buf (f0 * total + chOff) fr chans idx d hchans]

theorem later_frame_idx_ne (total chOff chans f0 f2 c c2 : ℕ)
    (hbound : chOff + chans ≤ total) (hc : c < chans) (hc2 : c2 < chans) :
    f0 * total + chOff + c ≠ ((f0 + 1) + f2) * total + chOff + c2 := by
  intro hEq
  have hlt : f0 * total + chOff + c < ((f0 + 1) + f2) * total + chOff + c2 := by
    calc f0 * total + chOff + c < f0 * total + total := by omega
      _ = (f0 + 1) * total := by ring
      _ ≤ ((f0 + 1) + f2) * total := Nat.mul_le_mul_right total (by omega)
      _ ≤ ((f0 + 1) + f2) * total + chOff + c2 := by omega
  omega

theorem writeFrames_hit (total chOff chans : ℕ) (hbound : chOff + chans ≤ total) :
    ∀ (data : List (List ℚ)) (f0 : ℕ) (buf : List ℚ) (f c : ℕ),
      f < data.length → c < chans →
      (f0 + f) * total + chOff + c < buf.length →
      (writeFrames total chOff chans data f0 buf).getD
        ((f0 + f) * total + chOff + c) 0 = (data.getD f []).getD c 0 := by
  intro data
  induction data with
  | nil =>
    intro f0 buf f c hf _ _
    simp at hf
  | cons fr rest ih =>
    intro f0 buf f c hf hc hlen
    rw [writeFrames]
    cases f with
    | zero =>
      simp only [Nat.add_zero] at hlen ⊢
      have hmiss : ∀ f2 c2, f2 < rest.length → c2 < chans →
          f0 * total + chOff + c ≠ ((f0 + 1) + f2) * total + chOff + c2 :=
        fun f2 c2 _ hc2 => later_frame_idx_ne total chOff chans f0 f2 c c2
          hbound hc hc2
      rw [writeFrames_miss total chOff chans rest (f0 + 1) _ _ 0
        (fun f2 c2 hf2 hc2 => hmiss f2 c2 hf2 hc2)]
      have hassoc : f0 * total + chOff + c = (f0 * total + chOff) + c := by omega
      rw [hassoc, writeChans_hit buf (f0 * total + chOff) fr chans c hc
        (by omega)]
      rfl
    | succ f2 =>
      have heq : f0 + (f2 + 1) = (f0 + 1) + f2 := by omega
      rw [heq] at hlen ⊢
      have := ih (f0 + 1) (writeChans buf (f0 * total + chOff) fr chans) f2 c
        (by simpa using hf) hc (by rw [writeChans_length]; exact hlen)
      rw [this]
      rfl

theorem zeroFill_length (buf : List ℚ) (n : ℕ) (h : n ≤ buf.length) :
    (zeroFill buf n).length = buf.length := by
  rw [zeroFill, List.length_append, List.length_replicate, List.length_drop]
  omega

theorem zeroFill_getD (buf : List ℚ) (n i : ℕ) (hi : i < n) :
    (zeroFill buf n).getD i 0 = 0 := by
  rw [zeroFill, List.getD_eq_getElem?_getD,
    List.getElem?_append_left (by rw [List.length_replicate]; exact hi),
    List.getElem?_replicate]
  simp [hi]

theorem chanOffset_zero (readers : List AudioSource) :
    chanOffset readers 0 = 0 := rfl

theorem chanOffset_succ (s : AudioSource) (rest : List AudioSource) (k : ℕ) :
    chanOffset (s :: rest) (k + 1) = s.channels + chanOffset rest k := by
  simp [chanOffset, totalChannels]

theorem chanOffset_add_channels_le (readers : List AudioSource) :
    ∀ k (hk : k < readers.length),
      chanOffset readers k + (readers.get ⟨k, hk⟩).channels ≤
        totalChannels readers := by
  induction readers with
  | nil => intro k hk; simp at hk
  | cons s rest ih =>
    intro k hk
    cases k with
    | zero =>
      simp only [chanOffset_zero, List.get, totalChannels, List.map_cons,
        List.sum_cons, Nat.zero_add]
      omega
    | succ k2 =>
      rw [chanOffset_succ]
      have := ih k2 (by simpa using hk)
      simp only [List.get, totalChannels, List.map_cons, List.sum_cons]
      have h2 : totalChannels rest = (rest.map AudioSource.channels).sum := rfl
      omega

theorem totalChannels_cons (s : AudioSource) (rest : List AudioSource) :
    totalChannels (s :: rest) = s.channels + totalChannels rest := by
  simp [totalChannels]

theorem idx_mod (f r total : ℕ) (hr : r < total) :
    (f * total + r) % total = r := by
  rw [Nat.mul_comm, Nat.mul_add_mod, Nat.mod_eq_of_lt hr]

theorem mergeSources_length (total frames : ℕ) :
    ∀ (rs : List AudioSource) (chOff minF : ℕ) (buf : List ℚ),
      (mergeSources total frames rs chOff minF buf).2.length = buf.length := by
  intro rs
  induction rs with
  | nil => intro chOff minF buf; rfl
  | cons s rest ih =>
    intro chOff minF buf
    rw [mergeSources, ih, writeFrames_length]

theorem mergeSources_fst (total frames : ℕ) :
    ∀ (rs : List AudioSource) (chOff minF : ℕ) (buf : List ℚ),
      (mergeSources total frames rs chOff minF buf).1 =
        List.foldl min minF (rs.map (readCount frames)) := by
  intro rs
  induction rs with
  | nil => intro chOff minF buf; rfl
  | cons s rest ih =>
    intro chOff minF buf
    rw [mergeSources, ih, List.map_cons, List.foldl_cons]

theorem mergeSources_untouched (total frames : ℕ) :
    ∀ (rs : List AudioSource) (chOff minF : ℕ) (buf : List ℚ) (idx : ℕ)
      (d : ℚ),
      (idx % total < chOff ∨ chOff + totalChannels rs ≤ idx % total) →
      chOff + totalChannels rs ≤ total →
      (mergeSources total frames rs chOff minF buf).2.getD idx d =
        buf.getD idx d := by
  intro rs
  induction rs with
  | nil => intro chOff minF buf idx d _ _; rfl
  | cons s rest ih =>
    intro chOff minF buf idx d hout hbound
    rw [totalChannels_cons] at hout hbound
    rw [mergeSources]
    rw [ih (chOff + s.channels) _ _ idx d ?_ (by omega)]
    · refine writeFrames_miss total chOff s.channels _ 0 buf idx d ?_
      intro f c hf hc hEq
      have hmod : idx % total = chOff + c := by
        have hassoc : (0 + f) * total + chOff + c = f * total + (chOff + c) := by
          ring
        rw [hEq, hassoc, idx_mod f (chOff + c) total (by omega)]
      omega
    · omega

theorem mergeSources_value (total frames : ℕ) :
    ∀ (rs : List AudioSource) (chOff minF : ℕ) (buf : List ℚ),
      chOff + totalChannels rs ≤ total →
      buf.length = frames * total →
      ∀ (k : ℕ) (hk : k < rs.length) (f c : ℕ), f < frames →
        c < (rs.get ⟨k, hk⟩).channels →
        (mergeSources total frames rs chOff minF buf).2.getD
          (f * total + (chOff + chanOffset rs k) + c) 0 =
        (if f < readCount frames (rs.get ⟨k, hk⟩)
         then ((rs.get ⟨k, hk⟩).data.getD f []).getD c 0
         else buf.getD (f * total + (chOff + chanOffset rs k) + c) 0) := by
  intro rs
  induction rs with
  | nil => intro chOff minF buf _ _ k hk; simp at hk
  | cons s rest ih =>
    intro chOff minF buf hbound hlen k hk f c hf hc
    rw [totalChannels_cons] at hbound
    rw [mergeSources]
    cases k with
    | zero =>
      simp only [List.get] at hc ⊢
      rw [chanOffset_zero, Nat.add_zero]
      have hchans : chOff + s.channels ≤ total := by omega
      have hrem : chOff + c < total := by omega
      rw [mergeSources_untouched total frames rest (chOff + s.channels) _ _
        _ 0 ?_ (by omega)]
      swap
      · left
        have hassoc : f * total + chOff + c = f * total + (chOff + c) := by ring
        rw [hassoc, idx_mod f (chOff + c) total hrem]
        omega
      by_cases hfr : f < readCount frames s
      · rw [if_pos hfr]
        have hflen : f < (s.data.take frames).length := by
          rw [List.length_take]
          simp only [readCount] at hfr
          omega
        have hidx : f * total + chOff + c < buf.length := by
          rw [hlen]
          have := idx_lt_of_parts f (chOff + c) total frames hrem hf
          omega
        have hhit := writeFrames_hit total chOff s.channels hchans
          (s.data.take frames) 0 buf f c hflen hc (by simpa using hidx)
        simp only [Nat.zero_add] at hhit
        rw [hhit]
        have htake : (s.data.take frames).getD f [] = s.data.getD f [] := by
          rw [List.getD_eq_getElem?_getD, List.getElem?_take_of_lt hf,
            ← List.getD_eq_getElem?_getD]
        rw [htake]
      · rw [if_neg hfr]
        refine writeFrames_miss total chOff s.channels _ 0 buf _ 0 ?_
        intro f2 c2 hf2 hc2 hEq
        have hf2r : f2 < readCount frames s := by
          rw [List.length_take] at hf2
          simp only [readCount]
          omega
        have hassoc : (0 + f2) * total + chOff + c2 =
            f2 * total + (chOff + c2) := by ring
        have hassoc2 : f * total + chOff + c = f * total + (chOff + c) := by
          ring
        rw [hassoc2, hassoc] at hEq
        have := idx_decomp_unique f (chOff + c) f2 (chOff + c2) total hrem
          (by omega) hEq
        omega
    | succ k2 =>
      have hk2 : k2 < rest.length := by simpa using hk
      have hget : (s :: rest).get ⟨k2 + 1, hk⟩ = rest.get ⟨k2, hk2⟩ := rfl
      rw [hget] at hc ⊢
      rw [chanOffset_succ]
      have hassoc : chOff + (s.channels + chanOffset rest k2) =
          (chOff + s.channels) + chanOffset rest k2 := by ring
      rw [hassoc]
      have hlen1 : (writeFrames total chOff s.channels (s.data.take frames)
          0 buf).length = frames * total := by
        rw [writeFrames_length]
        exact hlen
      have hih := ih (chOff + s.channels) (min minF (readCount frames s))
        (writeFrames total chOff s.channels (s.data.take frames) 0 buf)
        (by omega) hlen1 k2 hk2 f c hf hc
      rw [hih]
      by_cases hfr : f < readCount frames (rest.get ⟨k2, hk2⟩)
      · rw [if_pos hfr, if_pos hfr]
      · rw [if_neg hfr, if_neg hfr]
        have hoffb := chanOffset_add_channels_le rest k2 hk2
        have hrem2 : (chOff + s.channels) + chanOffset rest k2 + c < total := by
          omega
        refine writeFrames_miss total chOff s.channels _ 0 buf _ 0 ?_
        intro f2 c2 hf2 hc2 hEq
        have hassoc2 : (0 + f2) * total + chOff + c2 =
            f2 * total + (chOff + c2) := by ring
        have hassoc3 : f * total + ((chOff + s.channels) + chanOffset rest k2)
            + c = f * total + ((chOff + s.channels) + chanOffset rest k2 + c) := by
          ring
        rw [hassoc3, hassoc2] at hEq
        have := idx_decomp_unique f ((chOff + s.channels) + chanOffset rest k2
          + c) f2 (chOff + c2) total hrem2 (by omega) hEq
        omega

theorem foldl_min_le_init (l : List ℕ) : ∀ a, List.foldl min a l ≤ a := by
  induction l with
  | nil => intro a; exact le_refl a
  | cons y rest ih =>
    intro a
    rw [List.foldl_cons]
    exact le_trans (ih (min a y)) (min_le_left a y)

theorem foldl_min_le_mem (l : List ℕ) :
    ∀ (a x : ℕ), x ∈ l → List.foldl min a l ≤ x := by
  induction l with
  | nil => intro a x hx; simp at hx
  | cons y rest ih =>
    intro a x hx
    rw [List.foldl_cons]
    rcases List.mem_cons.mp hx with rfl | hrest
    · exact le_trans (foldl_min_le_init rest (min a x)) (min_le_right a x)
    · exact ih (min a y) x hrest

theorem foldl_min_mem (l : List ℕ) :
    ∀ a, List.foldl min a l = a ∨ List.foldl min a l ∈ l := by
  induction l with
  | nil => intro a; exact Or.inl rfl
  | cons y rest ih =>
    intro a
    rw [List.foldl_cons]
    rcases ih (min a y) with heq | hmem
    · rcases min_choice a y with hma | hmy
      · exact Or.inl (by rw [heq, hma])
      · exact Or.inr (by rw [heq, hmy]; exact List.mem_cons_self y rest)
    · exact Or.inr (List.mem_cons_of_mem y hmem)

/-- C4.  With at least one attached source, `MultiAudioReader::read_interleaved`
returns the minimum frame count actually read across the sources (each source
delivers `min requested available`), and fills the output buffer by
concatenating each source's channels in attach order within each interleaved
frame: for every frame below the returned count, the sample of source `k`'s
channel `c` sits at column `chanOffset k + c` and equals that source's own
sample. -/
theorem read_interleaved_min_and_layout (readers : List AudioSource)
    (frames : ℕ) (buffer : List ℚ) (hne : readers ≠ [])
    (hbuf : buffer.length = frames * totalChannels readers) :
    ((∀ s ∈ readers,
        (read_interleaved readers frames buffer).1 ≤ readCount frames s) ∧
     (∃ s ∈ readers,
        (read_interleaved readers frames buffer).1 = readCount frames s)) ∧
    (∀ (k : ℕ) (hk : k < readers.length) (f c : ℕ),
      f < (read_interleaved readers frames buffer).1 →
      c < (readers.get ⟨k, hk⟩).channels →
      (read_interleaved readers frames buffer).2.getD
        (f * totalChannels readers + chanOffset readers k + c) 0 =
      ((readers.get ⟨k, hk⟩).data.getD f []).getD c 0) := by
  cases readers with
  | nil => exact absurd rfl hne
  | cons s0 rest =>
    have hunfold : read_interleaved (s0 :: rest) frames buffer =
        mergeSources (totalChannels (s0 :: rest)) frames (s0 :: rest) 0 frames
          (zeroFill buffer (frames * totalChannels (s0 :: rest))) := rfl
    have hfst := mergeSources_fst (totalChannels (s0 :: rest)) frames
      (s0 :: rest) 0 frames (zeroFill buffer (frames * totalChannels (s0 :: rest)))
    constructor
    · constructor
      · intro s hs
        rw [hunfold, hfst]
        exact foldl_min_le_mem _ frames (readCount frames s)
          (List.mem_map_of_mem (readCount frames) hs)
      · rw [hunfold, hfst]
        rcases foldl_min_mem ((s0 :: rest).map (readCount frames)) frames with
          heq | hmem
        · refine ⟨s0, List.mem_cons_self s0 rest, ?_⟩
          have h1 := foldl_min_le_mem ((s0 :: rest).map (readCount frames))
            frames (readCount frames s0)
            (List.mem_map_of_mem (readCount frames) (List.mem_cons_self s0 rest))
          have h2 : readCount frames s0 ≤ frames := min_le_left _ _
          omega
        · obtain ⟨s, hs, hvs⟩ := List.mem_map.mp hmem
          exact ⟨s, hs, hvs.symm⟩
    · intro k hk f c hfmin hc
      have hle : (read_interleaved (s0 :: rest) frames buffer).1 ≤
          readCount frames ((s0 :: rest).get ⟨k, hk⟩) := by
        rw [hunfold, hfst]
        exact foldl_min_le_mem _ frames _
          (List.mem_map_of_mem (readCount frames) (List.get_mem _ k hk))
      have hff : f < frames := by
        have := le_trans hle (min_le_left frames _)
        omega
      have hzlen : (zeroFill buffer
          (frames * totalChannels (s0 :: rest))).length =
          frames * totalChannels (s0 :: rest) := by
        rw [zeroFill_length buffer _ (by omega)]
        exact hbuf
      have hval := mergeSources_value (totalChannels (s0 :: rest)) frames
        (s0 :: rest) 0 frames
        (zeroFill buffer (frames * totalChannels (s0 :: rest)))
        (by omega) hzlen k hk f c hff hc
      rw [hunfold]
      have hassoc : f * totalChannels (s0 :: rest) +
          (0 + chanOffset (s0 :: rest) k) + c =
          f * totalChannels (s0 :: rest) + chanOffset (s0 :: rest) k + c := by
        ring
      rw [hassoc] at hval
      rw [hval, if_pos (by omega)]

/-- Witness for `read_interleaved_min_and_layout`: a 3-channel and a 2-channel
source produce 5-channel interleaved frames; the minimum count is bounded by
both sources' read counts, and source 1's channel 0 of frame 1 lands at
position `1 * 5 + 3 + 0` holding that source's own sample. -/
theorem read_interleaved_min_and_layout_witness :
    (∀ s ∈ ([⟨44100, 3, [[1, 2, 3], [4, 5, 6]]⟩,
             ⟨44100, 2, [[7, 8], [9, 10]]⟩] : List AudioSource),
      (read_interleaved [⟨44100, 3, [[1, 2, 3], [4, 5, 6]]⟩,
        ⟨44100, 2, [[7, 8], [9, 10]]⟩] 2 (List.replicate 10 0)).1 ≤
        readCount 2 s) ∧
    (read_interleaved [⟨44100, 3, [[1, 2, 3], [4, 5, 6]]⟩,
      ⟨44100, 2, [[7, 8], [9, 10]]⟩] 2 (List.replicate 10 0)).2.getD
      (1 * 5 + 3 + 0) 0 =
      ((([[7, 8], [9, 10]] : List (List ℚ)).getD 1 []).getD 0 0) := by
  have h := read_interleaved_min_and_layout
    [⟨44100, 3, [[1, 2, 3], [4, 5, 6]]⟩, ⟨44100, 2, [[7, 8], [9, 10]]⟩] 2
    (List.replicate 10 0) (by simp) (by rfl)
  refine ⟨h.1.1, ?_⟩
  have h2 := h.2 1 (by decide) 1 0 (by decide) (by decide)
  simpa using h2

/-- Counterexample to C5 as stated: with source 0 holding 2 frames (`5`, `7` on
one channel) and source 1 holding 1 frame (`9`), the call returns the minimum
1, but the buffer position of frame 1 in source 0's column holds source 0's
real sample 7 — not zero.  Only the short source's own columns are zeroed
beyond the minimum. -/
theorem read_interleaved_tail_not_all_zero :
    (read_interleaved [⟨44100, 1, [[5], [7]]⟩, ⟨44100, 1, [[9]]⟩] 2
      (List.replicate 4 0)).1 = 1 ∧
    (1 : ℕ) < 2 ∧
    (read_interleaved [⟨44100, 1, [[5], [7]]⟩, ⟨44100, 1, [[9]]⟩] 2
      (List.replicate 4 0)).2.getD (1 * 2 + 0 + 0) 0 = 7 ∧
    (7 : ℚ) ≠ 0 := by
  refine ⟨rfl, by omega, rfl, ?_⟩
  intro h
  exact absurd (Rat.num_eq_zero.mpr h) (by norm_num)

/-- C5 (amended).  When `MultiAudioReader::read_interleaved` returns a minimum
`m` below the requested frame count, the zero guarantee is per source: for
every source, every sample in that source's own columns at frame positions at
or beyond that source's own read count is zero (in particular all columns of
every minimum-achieving source are zero from `m` on) — but a source that read
more than `m` frames keeps its real data between its own read count and the
requested count, as the counterexample shows. -/
theorem read_interleaved_source_tail_zero (readers : List AudioSource)
    (frames : ℕ) (buffer : List ℚ) (hne : readers ≠ [])
    (hbuf : buffer.length = frames * totalChannels readers) :
    ∀ (k : ℕ) (hk : k < readers.length) (f c : ℕ),
      readCount frames (readers.get ⟨k, hk⟩) ≤ f → f < frames →
      c < (readers.get ⟨k, hk⟩).channels →
      (read_interleaved readers frames buffer).2.getD
        (f * totalChannels readers + chanOffset readers k + c) 0 = 0 := by
  cases readers with
  | nil => exact absurd rfl hne
  | cons s0 rest =>
    intro k hk f c hfr hff hc
    have hunfold : read_interleaved (s0 :: rest) frames buffer =
        mergeSources (totalChannels (s0 :: rest)) frames (s0 :: rest) 0 frames
          (zeroFill buffer (frames * totalChannels (s0 :: rest))) := rfl
    have hzlen : (zeroFill buffer
        (frames * totalChannels (s0 :: rest))).length =
        frames * totalChannels (s0 :: rest) := by
      rw [zeroFill_length buffer _ (by omega)]
      exact hbuf
    have hval := mergeSources_value (totalChannels (s0 :: rest)) frames
      (s0 :: rest) 0 frames
      (zeroFill buffer (frames * totalChannels (s0 :: rest)))
      (by omega) hzlen k hk f c hff hc
    have hassoc : f * totalChannels (s0 :: rest) +
        (0 + chanOffset (s0 :: rest) k) + c =
        f * totalChannels (s0 :: rest) + chanOffset (s0 :: rest) k + c := by
      ring
    rw [hassoc] at hval
    rw [hunfold, hval, if_neg (by omega)]
    have hcols := chanOffset_add_channels_le (s0 :: rest) k hk
    have hrem : chanOffset (s0 :: rest) k + c < totalChannels (s0 :: rest) := by
      omega
    refine zeroFill_getD buffer _ _ ?_
    have hassoc2 : f * totalChannels (s0 :: rest) + chanOffset (s0 :: rest) k
        + c = f * totalChannels (s0 :: rest) +
          (chanOffset (s0 :: rest) k + c) := by ring
    rw [hassoc2]
    exact idx_lt_of_parts f _ _ frames hrem hff

/-- Witness for `read_interleaved_source_tail_zero`: in the two-source setup of
the counterexample, the *short* source's column at frame 1 (position
`1 * 2 + 1 + 0`) is zero. -/
theorem read_interleaved_source_tail_zero_witness :
    (read_interleaved [⟨44100, 1, [[5], [7]]⟩, ⟨44100, 1, [[9]]⟩] 2
      (List.replicate 4 0)).2.getD (1 * 2 + 1 + 0) 0 = 0 := by
  have h := read_interleaved_source_tail_zero
    [⟨44100, 1, [[5], [7]]⟩, ⟨44100, 1, [[9]]⟩] 2 (List.replicate 4 0)
    (by simp) (by rfl) 1 (by decide) 1 0 (by decide) (by decide) (by decide)
  simpa using h

end Vstshill
